import Mathlib

/-!
Shallow embedding of the contract-program evaluation engine
(`src/classes/performance_profile.py`, `src/classes/contract_program.py`).

Python floats are modelled as exact rationals (`ℚ`).  The JSON performance
profile is modelled as a nested association structure whose string keys
("{:.1f}", "{:.2f}", "{}" formatted numbers) are represented by their numeric
values: on the exact-rational model the formatting maps used by the sources
are injective on the key sets actually produced, so a numeric key is a
faithful stand-in for the formatted string.  Fallible Python code (raised
exceptions) is embedded in `Except PyErr`.
-/

attribute [local semireducible] Rat.add Rat.sub Rat.mul Rat.inv Rat.ofScientific

/-- Kinds of Python exceptions raised by the embedded code.  Message payloads
are elided; only the exception class matters for the claims. -/
inductive PyErr where
  | valueError
  | keyError
  | zeroDivisionError
  | indexError
  | typeError
deriving DecidableEq, Repr

/-- Decidable equality of embedded fallible results (needed to evaluate the
embedded functions on concrete inputs). -/
instance {ε α : Type} [DecidableEq ε] [DecidableEq α] : DecidableEq (Except ε α) :=
  fun x y =>
    match x, y with
    | .error e, .error f =>
      if h : e = f then .isTrue (by rw [h])
      else .isFalse (fun hc => h (Except.error.inj hc))
    | .error _, .ok _ => .isFalse (fun hc => Except.noConfusion hc)
    | .ok _, .error _ => .isFalse (fun hc => Except.noConfusion hc)
    | .ok a, .ok b =>
      if h : a = b then .isTrue (by rw [h])
      else .isFalse (fun hc => h (Except.ok.inj hc))

/-- Modelled from the spec: class `TimeAllocation` (its file
`src/classes/time_allocation.py` is not among the provided sources).  Per §3
of the spec an Allocation Vector is "an ordered sequence of
(node id → non-negative time) pairs"; the sources use exactly the two fields
`.time` and `.node_id` and the constructor `TimeAllocation(time, node_id)`. -/
structure TimeAllocation where
  time : ℚ
  node_id : ℕ
deriving DecidableEq, Repr

/-- Modelled from the spec: `Node` of the DAG collaborator (§3, §6 of the
spec): a non-negative integer `id` plus the list of parent `Node`
back-references.  Acyclicity (§1) is reflected by the inductive structure. -/
inductive Node where
  | mk (id : ℕ) (parents : List Node)

/-- Field accessor for `Node.id`. -/
def Node.id : Node → ℕ
  | .mk i _ => i

/-- Field accessor for `Node.parents`. -/
def Node.parents : Node → List Node
  | .mk _ ps => ps

/-- Value stored in the nested performance-profile dictionary: either a
sample sequence (the JSON array of quality floats at a time key) or a deeper
dictionary (one nesting level per parent quality, spec §6). -/
inductive QDict where
  | samples (qs : List ℚ)
  | dict (entries : List (ℚ × QDict))

/-- Association lookup in a dictionary level, keying by the numeric value of
the formatted string key. -/
def assocQ : List (ℚ × QDict) → ℚ → Option QDict
  | [], _ => none
  | (k2, v) :: rest, k => if k = k2 then some v else assocQ rest k

/-- Python `d[key]` on a profile-dictionary level: `KeyError` when the key is
absent; indexing into a sample list with a string key is a `TypeError`
(well-formed profiles per spec §6 never reach that case). -/
def lookupQ (d : QDict) (k : ℚ) : Except PyErr QDict :=
  match d with
  | .samples _ => .error .typeError
  | .dict entries =>
    match assocQ entries k with
    | some v => .ok v
    | none => .error .keyError

/-- Python `d[key]` where the looked-up value is consumed as a sample list
(`qualities += d[key]`, `sum(...)/len(...)`).  A nested dictionary in sample
position is treated as a `TypeError` (unreachable on well-formed profiles). -/
def samplesAt (d : QDict) (k : ℚ) : Except PyErr (List ℚ) :=
  match lookupQ d k with
  | .ok (.samples qs) => .ok qs
  | .ok (.dict _) => .error .typeError
  | .error e => .error e

/-- Top level of `self.dictionary`: the access chain
`self.dictionary["node_{}".format(id)]["qualities"]` is modelled as one
association lookup keyed by the node id (the constant `"qualities"` wrapper
is inlined; a missing `"node_i"` key raises `KeyError` exactly as in the
source). -/
def topLookup : List (ℕ × QDict) → ℕ → Except PyErr QDict
  | [], _ => .error .keyError
  | (k2, v) :: rest, id => if id = k2 then .ok v else topLookup rest id

/-- The `PerformanceProfile` object state (constructor parameters stored in
`__init__`); `dictionary = none` models a null `self.dictionary`. -/
structure PerformanceProfile where
  dictionary : Option (List (ℕ × QDict))
  time_interval : ℚ
  quality_interval : ℚ
  time_limit : ℚ
  time_step_size : ℚ

/-- Python builtin `round` to an integer: round-half-to-even (banker's
rounding), as used by `PerformanceProfile.round_nearest` and `numpy.round`. -/
def pyRound (q : ℚ) : ℤ :=
  let f := ⌊q⌋
  let r := q - (f : ℚ)
  if r < 1 / 2 then f
  else if 1 / 2 < r then f + 1
  else if f % 2 = 0 then f else f + 1

/-- `PerformanceProfile.round_nearest`: `round(number / step) * step`. -/
def PerformanceProfile.round_nearest (number step : ℚ) : ℚ :=
  (pyRound (number / step) : ℚ) * step

/-- Numeric value of `"{:.1f}".format(q)`: the value rounded to one decimal
place (Python formats the exact value of the double with round-half-even). -/
def fmt1 (q : ℚ) : ℚ :=
  (pyRound (q * 10) : ℚ) / 10

/-- Numeric value of `"{:.2f}".format(q)`: the value rounded to two decimal
places. -/
def fmt2 (q : ℚ) : ℚ :=
  (pyRound (q * 100) : ℚ) / 100

/-- `numpy.round(x, d)`: round to `d` decimal places, half to even. -/
def roundDec (d : ℕ) (q : ℚ) : ℚ :=
  (pyRound (q * 10 ^ d) : ℚ) / 10 ^ d

/-- `numpy.arange(start, stop, step)`: the half-open grid
`start, start + step, ...` of length `⌈(stop - start) / step⌉` (clamped at
zero); the stop value itself is never produced. -/
def arange (start stop step : ℚ) : List ℚ :=
  (List.range (⌈(stop - start) / step⌉).toNat).map (fun (k : ℕ) => start + (k : ℚ) * step)

/-- Helper for `find_number_of_decimals`: least number of decimal digits
needed for `q`, found by repeated multiplication by 10.  The fuel bound 1200
exceeds the 1075 decimal digits any IEEE double can need, so it is never
exhausted on values a float can take. -/
def decimalsAux : ℕ → ℚ → ℕ
  | 0, _ => 0
  | fuel + 1, q => if q.den = 1 then 0 else decimalsAux fuel (q * 10) + 1

/-- `PerformanceProfile.find_number_of_decimals`: the number of digits after
the decimal point in `str(number)`.  An integral float prints as `"x.0"`
(one digit); otherwise the shortest decimal representation of the modelled
value is counted. -/
def PerformanceProfile.find_number_of_decimals (q : ℚ) : ℕ :=
  if q.den = 1 then 1 else decimalsAux 1200 q

/-- `PerformanceProfile.average_quality`: `sum(qualities) / len(qualities)`;
raises `ZeroDivisionError` on an empty list. -/
def PerformanceProfile.average_quality (qualities : List ℚ) : Except PyErr ℚ :=
  match qualities with
  | [] => .error .zeroDivisionError
  | _ => .ok (qualities.sum / (qualities.length : ℚ))

/-- Descent through the nested parent-quality levels: for each parent quality
`pq`, look up the key `"{:.2f}".format(round_nearest(pq, quality_interval))`
(the loop bodies of `query_quality_list_on_interval` and
`query_average_quality`). -/
def descend (d : QDict) (pqs : List ℚ) (quality_interval : ℚ) : Except PyErr QDict :=
  match pqs with
  | [] => .ok d
  | pq :: rest => do
    let d2 ← lookupQ d (fmt2 (PerformanceProfile.round_nearest pq quality_interval))
    descend d2 rest quality_interval

/-- Time keys enumerated by `query_quality_list_on_interval`: the discretized
interval start `(time // time_interval) * time_interval` (shifted down one
interval when `time == time_limit`), swept by `numpy.arange` with
`time_step_size` and rounded to the decimals of `time_step_size`. -/
def timeKeys (pp : PerformanceProfile) (time : ℚ) : List ℚ :=
  let start_step := (⌊time / pp.time_interval⌋ : ℚ) * pp.time_interval
  let start_step :=
    if time = pp.time_limit then
      (⌊(time - pp.time_interval) / pp.time_interval⌋ : ℚ) * pp.time_interval
    else start_step
  let end_step := start_step + pp.time_interval
  let num_decimals := PerformanceProfile.find_number_of_decimals pp.time_step_size
  (arange start_step end_step pp.time_step_size).map (roundDec num_decimals)

/-- The accumulation loop `qualities += dictionary["{}".format(t)]` over the
enumerated time keys. -/
def gatherQualities (d : QDict) : List ℚ → Except PyErr (List ℚ)
  | [] => .ok []
  | k :: rest => do
    let qs ← samplesAt d k
    let restQs ← gatherQualities d rest
    .ok (qs ++ restQs)

/-- `PerformanceProfile.query_quality_list_on_interval(time, id,
parent_qualities)`: union of the recorded sample lists over the discretized
time interval. -/
def PerformanceProfile.query_quality_list_on_interval (pp : PerformanceProfile)
    (time : ℚ) (id : ℕ) (parent_qualities : List ℚ) : Except PyErr (List ℚ) :=
  match pp.dictionary with
  | none => .error .valueError
  | some top => do
    let d ← topLookup top id
    let d2 ← descend d parent_qualities pp.quality_interval
    gatherQualities d2 (timeKeys pp time)

/-- `PerformanceProfile.query_probability_contract_expression(queried_quality,
quality_list)`: fraction of the (sorted) samples lying in the half-open
quality band `[start_quality, start_quality + quality_interval)`; the final
division raises `ZeroDivisionError` on an empty sample list. -/
def PerformanceProfile.query_probability_contract_expression (pp : PerformanceProfile)
    (queried_quality : ℚ) (quality_list : List ℚ) : Except PyErr ℚ :=
  let sorted_list := quality_list.insertionSort (· ≤ ·)
  let start_quality := (⌊queried_quality / pp.quality_interval⌋ : ℚ) * pp.quality_interval
  let end_quality := start_quality + pp.quality_interval
  let number_in_interval :=
    sorted_list.countP (fun q => decide (start_quality ≤ q ∧ q < end_quality))
  match sorted_list with
  | [] => .error .zeroDivisionError
  | _ => .ok ((number_in_interval : ℚ) / (sorted_list.length : ℚ))

/-- `PerformanceProfile.query_average_quality(id, time, parent_qualities)`:
mean of the sample list at the single time key
`"{:.1f}".format(round_nearest(time.time, time_interval))`, descending the
parent-quality levels first for non-leaf nodes. -/
def PerformanceProfile.query_average_quality (pp : PerformanceProfile) (id : ℕ)
    (time : TimeAllocation) (parent_qualities : List ℚ) : Except PyErr ℚ :=
  match pp.dictionary with
  | none => .error .valueError
  | some top =>
    match parent_qualities with
    | [] => do
      let d ← topLookup top id
      let estimated_time := PerformanceProfile.round_nearest time.time pp.time_interval
      let qs ← samplesAt d (fmt1 estimated_time)
      PerformanceProfile.average_quality qs
    | _ :: _ => do
      let d ← topLookup top id
      let estimated_time := PerformanceProfile.round_nearest time.time pp.time_interval
      let d2 ← descend d parent_qualities pp.quality_interval
      let qs ← samplesAt d2 (fmt1 estimated_time)
      PerformanceProfile.average_quality qs

/-- Python list indexing `l[i]` with a non-negative index: `IndexError` when
out of range. -/
def listGetE {α : Type} : List α → ℕ → Except PyErr α
  | [], _ => .error .indexError
  | x :: _, 0 => .ok x
  | _ :: rest, n + 1 => listGetE rest n

/-- Dynamically-typed return value of
`ContractProgram.find_parent_qualities`: the Python method returns either a
list (the depth-0 call) or a single float (all deeper calls). -/
inductive FPQRes where
  | lst (l : List FPQRes)
  | flt (q : ℚ)

/-- Use of a collected parent-qualities list as a list of floats inside
`query_average_quality` (each element is passed to `round_nearest`): a list
element in float position would raise a `TypeError`.  On every reachable
call the elements are single floats, so the error branch is unreachable. -/
def toFloats : List FPQRes → Except PyErr (List ℚ)
  | [] => .ok []
  | .flt q :: rest => (toFloats rest).map (q :: ·)
  | .lst _ :: _ => .error .typeError

mutual

/-- `ContractProgram.find_parent_qualities(node, time_allocations, depth)`:
depth-first recursion over the parents of `node`.  The body first performs
`depth += 1`, collects one recursive result per parent, and either returns
the collected list (when the incremented depth is 1, i.e. the outermost
call) or feeds it to `query_average_quality` at
`time_allocations[node.id]`. -/
def ContractProgram.find_parent_qualities (pp : PerformanceProfile)
    (tas : List TimeAllocation) : Node → ℕ → Except PyErr FPQRes
  | node, depth =>
    let depth2 := depth + 1
    match node with
    | .mk id parents =>
      match parents with
      | phead :: ptail =>
        match fpqList pp tas (phead :: ptail) depth2 with
        | .error e => .error e
        | .ok parent_qualities =>
          if depth2 = 1 then .ok (.lst parent_qualities)
          else
            match toFloats parent_qualities with
            | .error e => .error e
            | .ok fs =>
              match listGetE tas id with
              | .error e => .error e
              | .ok ta => (PerformanceProfile.query_average_quality pp id ta fs).map .flt
      | [] =>
        if depth2 = 1 then .ok (.lst [])
        else
          match listGetE tas id with
          | .error e => .error e
          | .ok ta => (PerformanceProfile.query_average_quality pp id ta []).map .flt
termination_by node _ => sizeOf node

/-- The `for parent in node.parents` loop of `find_parent_qualities`:
sequentially recurse on each parent, propagating the first raised
exception. -/
def fpqList (pp : PerformanceProfile) (tas : List TimeAllocation) :
    List Node → ℕ → Except PyErr (List FPQRes)
  | [], _ => .ok []
  | p :: ps, d =>
    match ContractProgram.find_parent_qualities pp tas p d with
    | .error e => .error e
    | .ok q =>
      match fpqList pp tas ps d with
      | .error e => .error e
      | .ok qs => .ok (q :: qs)
termination_by ps _ => sizeOf ps

end

/-- Entry of the allocation list at a position; positions are in range on
every reachable state (`uniform_budget` numbers the entries `0, ...,
order - 1`), so the default value of `List.getD` is never consulted there. -/
def nth (l : List TimeAllocation) (i : ℕ) : TimeAllocation :=
  l.getD i ⟨0, 0⟩

/-- In-place field update `l[i].time = t` of the Python allocation list. -/
def setTimeAt : List TimeAllocation → ℕ → ℚ → List TimeAllocation
  | [], _, _ => []
  | ta :: rest, 0, t => ⟨t, ta.node_id⟩ :: rest
  | ta :: rest, i + 1, t => ta :: setTimeAt rest i t

/-- Total time of an allocation list. -/
def sumTimes (l : List TimeAllocation) : ℚ :=
  (l.map (·.time)).sum

/-- Candidate construction of `naive_hill_climbing` for the ordered pair of
node ids `(i, j)` (lines 147-150 of `contract_program.py`): on a deep copy,
`time[i] -= s` and then `time[j] += s` (the second read happens after the
first write, as in the source). -/
def makeCandidate (allocs : List TimeAllocation) (i j : ℕ) (s : ℚ) : List TimeAllocation :=
  let adjusted := setTimeAt allocs i ((nth allocs i).time - s)
  setTimeAt adjusted j ((nth adjusted j).time + s)

/-- `itertools.permutations(self.allocations, 2)`: all ordered pairs of
distinct positions, enumerated in index order `(0,1), (0,2), ..., (1,0),
(1,2), ...`. -/
def orderedPairs (l : List TimeAllocation) : List (TimeAllocation × TimeAllocation) :=
  (List.range l.length).flatMap (fun i =>
    ((List.range l.length).filter (fun j => decide (j ≠ i))).map
      (fun j => (nth l i, nth l j)))

/-- Body of the `for permutation in permutations(...)` loop: skip pairs with
equal node ids, skip pairs that would drive `time[i]` negative, build the
candidate, and keep it when its expected utility strictly exceeds the
current best's (`eu` models `self.global_expected_utility`, a deterministic
pure function of the allocation, spec §8). -/
def candStep (eu : List TimeAllocation → ℚ) (allocs : List TimeAllocation) (s : ℚ)
    (p : TimeAllocation × TimeAllocation) : Option (List TimeAllocation) :=
  if p.1.node_id = p.2.node_id then none
  else if (nth allocs p.1.node_id).time - s < 0 then none
  else
    let adjusted := makeCandidate allocs p.1.node_id p.2.node_id s
    if eu allocs < eu adjusted then some adjusted else none

/-- The round-local list `possible_local_max` of improving candidates, in
enumeration order. -/
def roundCandidates (eu : List TimeAllocation → ℚ) (allocs : List TimeAllocation)
    (s : ℚ) : List (List TimeAllocation) :=
  (orderedPairs allocs).filterMap (candStep eu allocs s)

/-- Python `max` over a non-empty list of floats (`max([eu(j) for j in
possible_local_max])`); the `[]` case is never consulted (the call is
guarded by `if possible_local_max:`). -/
def listMax : List ℚ → ℚ
  | [] => 0
  | x :: xs => xs.foldl max x

/-- The selection loop `for j in possible_local_max: if eu(j) ==
best_allocation: self.allocations = deepcopy(j)`: every candidate matching
the maximum overwrites the current best, so the last match wins. -/
def selectLoop (eu : List TimeAllocation → ℚ) (best : ℚ) (init : List TimeAllocation) :
    List (List TimeAllocation) → List TimeAllocation :=
  fun l => l.foldl (fun acc j => if eu j = best then j else acc) init

/-- One round of `naive_hill_climbing` (one pass of the `while` body, lines
134-180): collect the improving candidates over all ordered pairs; if any
exist, replace the current best through the selection loop and keep the step
size, otherwise keep the allocation and divide the step size by `decay`.
The verbose printing block (lines 155-170) reads but never writes the state
and is omitted. -/
def climbRound (eu : List TimeAllocation → ℚ) (decay : ℚ)
    (st : List TimeAllocation × ℚ) : List TimeAllocation × ℚ :=
  match roundCandidates eu st.1 st.2 with
  | [] => (st.1, st.2 / decay)
  | c :: cs =>
    let best := listMax ((c :: cs).map eu)
    (selectLoop eu best st.1 (c :: cs), st.2)

/-- The `while time_switched > threshold` loop of `naive_hill_climbing`,
embedded with explicit fuel: `none` means the fuel was exhausted before the
loop condition failed (the termination theorem shows enough fuel always
exists). -/
def climbLoop (eu : List TimeAllocation → ℚ) (decay threshold : ℚ) :
    ℕ → List TimeAllocation → ℚ → Option (List TimeAllocation)
  | 0, _, _ => none
  | fuel + 1, allocs, s =>
    if threshold < s then
      let st := climbRound eu decay (allocs, s)
      climbLoop eu decay threshold fuel st.1 st.2
    else some allocs

/-- `ContractProgram.naive_hill_climbing(decay, threshold)`: the initial step
size is `self.budget / self.dag.order`, the loop state is
`self.allocations`.  `eu` stands for the bound method
`self.global_expected_utility`, a deterministic pure function of the
allocation list (spec §8) assumed total on the visited allocations (the
profile-coverage invariant of spec §3/§7; a raised lookup failure would
abort the Python loop instead). -/
def ContractProgram.naive_hill_climbing (eu : List TimeAllocation → ℚ) (budget : ℚ)
    (order : ℕ) (allocations : List TimeAllocation) (decay threshold : ℚ)
    (fuel : ℕ) : Option (List TimeAllocation) :=
  climbLoop eu decay threshold fuel allocations (budget / (order : ℚ))

/-- Well-formedness of an optimizer state with `n` nodes and total time `T`:
entry `i` carries node id `i` (as produced by `uniform_budget` and
`random_budget`), times are non-negative, and the total time is `T`.  These
are exactly the invariants the hill-climbing loop preserves. -/
def GoodAlloc (n : ℕ) (T : ℚ) (a : List TimeAllocation) : Prop :=
  a.length = n ∧ (∀ i < n, (nth a i).node_id = i) ∧
    (∀ i < n, 0 ≤ (nth a i).time) ∧ sumTimes a = T

/-- Allocations reachable from `a0` by moves of the fixed step size `s`:
well-formed states whose entry times differ from `a0`'s by integer
multiples of `s`.  At a fixed step size the loop stays inside this set,
which is finite. -/
def LatticeSet (n : ℕ) (T : ℚ) (s : ℚ) (a0 : List TimeAllocation) :
    Set (List TimeAllocation) :=
  {x | GoodAlloc n T x ∧ ∀ i < n, ∃ k : ℤ, (nth x i).time = (nth a0 i).time + (k : ℚ) * s}

/-- Concrete profile dictionary for node 0 used in the counterexample to the
closed-at-the-limit reading of `query_quality_list_on_interval`: one-decimal
time keys `9.0, 9.1, ..., 9.9` and `10.0`, each holding a distinguishable
singleton sample list. -/
def dictC1 : QDict :=
  .dict [(9, .samples [90]), (91 / 10, .samples [91]), (46 / 5, .samples [92]),
    (93 / 10, .samples [93]), (47 / 5, .samples [94]), (19 / 2, .samples [95]),
    (48 / 5, .samples [96]), (97 / 10, .samples [97]), (49 / 5, .samples [98]),
    (99 / 10, .samples [99]), (10, .samples [100])]

/-- Concrete profile with `time_interval = 1`, `quality_interval = 0.05`,
`time_limit = 10`, `time_step_size = 0.1` (the repository configuration)
holding `dictC1` for node 0. -/
def ppC1 : PerformanceProfile :=
  ⟨some [(0, dictC1)], 1, 1 / 20, 10, 1 / 10⟩

/-- Concrete profile with `quality_interval = 1.0`, used for the boundary
counterexample to the full-range probability claim. -/
def ppC5 : PerformanceProfile :=
  ⟨none, 1, 1, 10, 1 / 10⟩

/-- Concrete leaf-node profile dictionary: samples `[0.5, 1]` at time key
`5.0`. -/
def dictC8 : QDict :=
  .dict [(5, .samples [1 / 2, 1])]

/-- Concrete profile holding `dictC8` for node 0. -/
def ppC8 : PerformanceProfile :=
  ⟨some [(0, dictC8)], 1, 1 / 20, 10, 1 / 10⟩

/-- Concrete two-node allocation `[(time 5, node 0), (time 5, node 1)]` (the
`uniform_budget` state for budget 10). -/
def allocStart : List TimeAllocation :=
  [⟨5, 0⟩, ⟨5, 1⟩]

/-- Candidate produced by the ordered pair `(0, 1)` at step size 5 from
`allocStart`. -/
def allocA : List TimeAllocation :=
  [⟨0, 0⟩, ⟨10, 1⟩]

/-- Candidate produced by the ordered pair `(1, 0)` at step size 5 from
`allocStart`. -/
def allocB : List TimeAllocation :=
  [⟨10, 0⟩, ⟨0, 1⟩]

/-- Expected-utility oracle that gives the starting allocation utility 0 and
every other allocation utility 1, producing two tied improving candidates. -/
def euTie : List TimeAllocation → ℚ :=
  fun l => if l = allocStart then 0 else 1

/-- Constant-zero expected-utility oracle (used for concrete witnesses). -/
def euZero : List TimeAllocation → ℚ :=
  fun _ => 0

theorem nth_cons_zero (ta : TimeAllocation) (rest : List TimeAllocation) :
    nth (ta :: rest) 0 = ta := rfl

theorem nth_cons_succ (ta : TimeAllocation) (rest : List TimeAllocation) (i : ℕ) :
    nth (ta :: rest) (i + 1) = nth rest i := rfl

theorem length_setTimeAt (a : List TimeAllocation) (i : ℕ) (t : ℚ) :
    (setTimeAt a i t).length = a.length := by
  induction a generalizing i with
  | nil => rfl
  | cons ta rest ih =>
    cases i with
    | zero => rfl
    | succ n => simp [setTimeAt, ih]

theorem nth_setTimeAt_self (a : List TimeAllocation) (i : ℕ) (t : ℚ)
    (hi : i < a.length) : nth (setTimeAt a i t) i = ⟨t, (nth a i).node_id⟩ := by
  induction a generalizing i with
  | nil => simp at hi
  | cons ta rest ih =>
    cases i with
    | zero => simp [setTimeAt, nth]
    | succ n =>
      have := ih n (by simpa using hi)
      simpa [setTimeAt, nth_cons_succ] using this

theorem nth_setTimeAt_ne (a : List TimeAllocation) (i k : ℕ) (t : ℚ)
    (hk : k ≠ i) : nth (setTimeAt a i t) k = nth a k := by
  induction a generalizing i k with
  | nil => simp [setTimeAt]
  | cons ta rest ih =>
    cases i with
    | zero =>
      cases k with
      | zero => exact absurd rfl hk
      | succ m => simp [setTimeAt, nth_cons_succ]
    | succ n =>
      cases k with
      | zero => simp [setTimeAt, nth_cons_zero]
      | succ m =>
        have := ih n m (fun h => hk (by omega))
        simpa [setTimeAt, nth_cons_succ] using this

theorem sumTimes_nil : sumTimes [] = 0 := rfl

theorem sumTimes_cons (ta : TimeAllocation) (rest : List TimeAllocation) :
    sumTimes (ta :: rest) = ta.time + sumTimes rest := by
  simp [sumTimes]

theorem sumTimes_setTimeAt (a : List TimeAllocation) (i : ℕ) (t : ℚ)
    (hi : i < a.length) :
    sumTimes (setTimeAt a i t) = sumTimes a - (nth a i).time + t := by
  induction a generalizing i with
  | nil => simp at hi
  | cons ta rest ih =>
    cases i with
    | zero => simp [setTimeAt, sumTimes_cons, nth_cons_zero]; ring
    | succ n =>
      have := ih n (by simpa using hi)
      simp [setTimeAt, sumTimes_cons, nth_cons_succ, this]
      ring

theorem sumTimes_nonneg (a : List TimeAllocation)
    (h : ∀ j < a.length, 0 ≤ (nth a j).time) : 0 ≤ sumTimes a := by
  induction a with
  | nil => simp [sumTimes_nil]
  | cons ta rest ih =>
    have h0 : 0 ≤ ta.time := h 0 (by simp)
    have hrest : ∀ j < rest.length, 0 ≤ (nth rest j).time := by
      intro j hj
      have := h (j + 1) (by simpa using Nat.succ_lt_succ hj)
      simpa [nth_cons_succ] using this
    have := ih hrest
    rw [sumTimes_cons]
    linarith

theorem nth_le_sumTimes (a : List TimeAllocation) (i : ℕ)
    (h : ∀ j < a.length, 0 ≤ (nth a j).time) (hi : i < a.length) :
    (nth a i).time ≤ sumTimes a := by
  induction a generalizing i with
  | nil => simp at hi
  | cons ta rest ih =>
    have hrest : ∀ j < rest.length, 0 ≤ (nth rest j).time := by
      intro j hj
      have := h (j + 1) (by simpa using Nat.succ_lt_succ hj)
      simpa [nth_cons_succ] using this
    cases i with
    | zero =>
      have := sumTimes_nonneg rest hrest
      rw [sumTimes_cons, nth_cons_zero]
      linarith
    | succ n =>
      have h0 : 0 ≤ ta.time := h 0 (by simp)
      have := ih n hrest (by simpa using hi)
      rw [sumTimes_cons, nth_cons_succ]
      linarith

theorem nth_ext (a b : List TimeAllocation) (hlen : a.length = b.length)
    (h : ∀ i < a.length, nth a i = nth b i) : a = b := by
  induction a generalizing b with
  | nil =>
    cases b with
    | nil => rfl
    | cons tb rest => simp at hlen
  | cons ta rest ih =>
    cases b with
    | nil => simp at hlen
    | cons tb brest =>
      have hhead : ta = tb := by
        have := h 0 (by simp)
        simpa [nth_cons_zero] using this
      have htail : rest = brest := by
        refine ih brest (by simpa using hlen) ?_
        intro i hi
        have := h (i + 1) (by simpa using Nat.succ_lt_succ hi)
        simpa [nth_cons_succ] using this
      rw [hhead, htail]

theorem length_makeCandidate (a : List TimeAllocation) (i j : ℕ) (s : ℚ) :
    (makeCandidate a i j s).length = a.length := by
  simp [makeCandidate, length_setTimeAt]

theorem nth_makeCandidate_fst (a : List TimeAllocation) (i j : ℕ) (s : ℚ)
    (hi : i < a.length) (hij : i ≠ j) :
    nth (makeCandidate a i j s) i = ⟨(nth a i).time - s, (nth a i).node_id⟩ := by
  unfold makeCandidate
  rw [nth_setTimeAt_ne _ _ _ _ hij, nth_setTimeAt_self _ _ _ hi]

theorem nth_makeCandidate_snd (a : List TimeAllocation) (i j : ℕ) (s : ℚ)
    (hj : j < a.length) (hij : i ≠ j) :
    nth (makeCandidate a i j s) j = ⟨(nth a j).time + s, (nth a j).node_id⟩ := by
  unfold makeCandidate
  have hj2 : j < (setTimeAt a i ((nth a i).time - s)).length := by
    rwa [length_setTimeAt]
  rw [nth_setTimeAt_self _ _ _ hj2, nth_setTimeAt_ne _ _ _ _ (fun h => hij h.symm)]

theorem nth_makeCandidate_other (a : List TimeAllocation) (i j k : ℕ) (s : ℚ)
    (hki : k ≠ i) (hkj : k ≠ j) :
    nth (makeCandidate a i j s) k = nth a k := by
  unfold makeCandidate
  rw [nth_setTimeAt_ne _ _ _ _ hkj, nth_setTimeAt_ne _ _ _ _ hki]

theorem sumTimes_makeCandidate (a : List TimeAllocation) (i j : ℕ) (s : ℚ)
    (hi : i < a.length) (hj : j < a.length) (hij : i ≠ j) :
    sumTimes (makeCandidate a i j s) = sumTimes a := by
  unfold makeCandidate
  have hj2 : j < (setTimeAt a i ((nth a i).time - s)).length := by
    rwa [length_setTimeAt]
  rw [sumTimes_setTimeAt _ _ _ hj2, sumTimes_setTimeAt _ _ _ hi,
    nth_setTimeAt_ne _ _ _ _ (fun h => hij h.symm)]
  ring

theorem mem_orderedPairs (l : List TimeAllocation) (p : TimeAllocation × TimeAllocation) :
    p ∈ orderedPairs l ↔
      ∃ i j, i < l.length ∧ j < l.length ∧ j ≠ i ∧ p = (nth l i, nth l j) := by
  unfold orderedPairs
  constructor
  · intro hp
    rcases List.mem_flatMap.mp hp with ⟨i, hi, hmem⟩
    rcases List.mem_map.mp hmem with ⟨j, hj, hpe⟩
    rcases List.mem_filter.mp hj with ⟨hjr, hji⟩
    exact ⟨i, j, List.mem_range.mp hi, List.mem_range.mp hjr,
      of_decide_eq_true hji, hpe.symm⟩
  · rintro ⟨i, j, hi, hj, hji, rfl⟩
    refine List.mem_flatMap.mpr ⟨i, List.mem_range.mpr hi, ?_⟩
    refine List.mem_map.mpr ⟨j, ?_, rfl⟩
    exact List.mem_filter.mpr ⟨List.mem_range.mpr hj, decide_eq_true hji⟩

theorem mem_roundCandidates_improving (eu : List TimeAllocation → ℚ)
    (a c : List TimeAllocation) (s : ℚ) (hc : c ∈ roundCandidates eu a s) :
    eu a < eu c := by
  rcases List.mem_filterMap.mp hc with ⟨p, _, hstep⟩
  unfold candStep at hstep
  by_cases h1 : p.1.node_id = p.2.node_id
  · simp [h1] at hstep
  · by_cases h2 : (nth a p.1.node_id).time - s < 0
    · simp [h1, h2] at hstep
    · by_cases h3 : eu a < eu (makeCandidate a p.1.node_id p.2.node_id s)
      · simp only [h1, h2, h3, if_false, if_true, if_neg, Option.some.injEq] at hstep
        rcases hstep with rfl
        exact h3
      · simp [h1, h2, h3] at hstep

theorem mem_roundCandidates_struct (eu : List TimeAllocation → ℚ)
    (a c : List TimeAllocation) (s : ℚ)
    (hids : ∀ i < a.length, (nth a i).node_id = i)
    (hc : c ∈ roundCandidates eu a s) :
    ∃ i j, i < a.length ∧ j < a.length ∧ i ≠ j ∧
      ¬((nth a i).time - s < 0) ∧ c = makeCandidate a i j s := by
  rcases List.mem_filterMap.mp hc with ⟨p, hp, hstep⟩
  rcases (mem_orderedPairs a p).mp hp with ⟨i, j, hi, hj, hji, rfl⟩
  unfold candStep at hstep
  simp only at hstep
  rw [hids i hi, hids j hj] at hstep
  have hij : ¬(i = j) := fun h => hji h.symm
  rw [if_neg hij] at hstep
  by_cases h2 : (nth a i).time - s < 0
  · simp [h2] at hstep
  · rw [if_neg h2] at hstep
    by_cases h3 : eu a < eu (makeCandidate a i j s)
    · simp only [h3, if_true, Option.some.injEq] at hstep
      exact ⟨i, j, hi, hj, hij, h2, hstep.symm⟩
    · simp [h3] at hstep

theorem goodAlloc_makeCandidate (n : ℕ) (T : ℚ) (a : List TimeAllocation)
    (i j : ℕ) (s : ℚ) (hg : GoodAlloc n T a) (hi : i < n) (hj : j < n)
    (hij : i ≠ j) (hs : 0 < s) (hneg : ¬((nth a i).time - s < 0)) :
    GoodAlloc n T (makeCandidate a i j s) := by
  obtain ⟨hlen, hids, hnn, htot⟩ := hg
  have hia : i < a.length := by rwa [hlen]
  have hja : j < a.length := by rwa [hlen]
  refine ⟨by rw [length_makeCandidate, hlen], ?_, ?_, ?_⟩
  · intro k hk
    by_cases hki : k = i
    · subst hki
      rw [nth_makeCandidate_fst a k j s hia hij]
      exact hids k hk
    · by_cases hkj : k = j
      · subst hkj
        rw [nth_makeCandidate_snd a i k s hja hij]
        exact hids k hk
      · rw [nth_makeCandidate_other a i j k s hki hkj]
        exact hids k hk
  · intro k hk
    by_cases hki : k = i
    · subst hki
      rw [nth_makeCandidate_fst a k j s hia hij]
      simpa using not_lt.mp hneg
    · by_cases hkj : k = j
      · subst hkj
        rw [nth_makeCandidate_snd a i k s hja hij]
        have := hnn k hk
        simpa using by linarith
      · rw [nth_makeCandidate_other a i j k s hki hkj]
        exact hnn k hk
  · rw [sumTimes_makeCandidate a i j s hia hja hij]
    exact htot

theorem lattice_makeCandidate (a : List TimeAllocation) (i j : ℕ) (s : ℚ)
    (hi : i < a.length) (hj : j < a.length) (hij : i ≠ j) :
    ∀ k < a.length, ∃ z : ℤ,
      (nth (makeCandidate a i j s) k).time = (nth a k).time + (z : ℚ) * s := by
  intro k _
  by_cases hki : k = i
  · subst hki
    refine ⟨-1, ?_⟩
    rw [nth_makeCandidate_fst a k j s hi hij]
    push_cast
    ring
  · by_cases hkj : k = j
    · subst hkj
      refine ⟨1, ?_⟩
      rw [nth_makeCandidate_snd a i k s hj hij]
      push_cast
      ring
    · refine ⟨0, ?_⟩
      rw [nth_makeCandidate_other a i j k s hki hkj]
      push_cast
      ring

theorem selectLoop_eq_getLastD (eu : List TimeAllocation → ℚ) (b : ℚ)
    (init : List TimeAllocation) (l : List (List TimeAllocation)) :
    selectLoop eu b init l = (l.filter (fun c => decide (eu c = b))).getLastD init := by
  induction l generalizing init with
  | nil => rfl
  | cons x xs ih =>
    by_cases hx : eu x = b
    · have h1 : selectLoop eu b init (x :: xs) = selectLoop eu b x xs := by
        simp [selectLoop, hx]
      rw [h1, ih, List.filter_cons, if_pos (decide_eq_true hx), List.getLastD_cons]
    · have h1 : selectLoop eu b init (x :: xs) = selectLoop eu b init xs := by
        simp [selectLoop, hx]
      rw [h1, ih, List.filter_cons, if_neg (by simpa using hx)]

theorem foldl_max_mem (xs : List ℚ) (init : ℚ) :
    xs.foldl max init = init ∨ xs.foldl max init ∈ xs := by
  induction xs generalizing init with
  | nil => exact Or.inl rfl
  | cons y ys ih =>
    rcases ih (max init y) with h | h
    · rcases max_choice init y with hm | hm
      · exact Or.inl (by rw [List.foldl_cons, h, hm])
      · exact Or.inr (by rw [List.foldl_cons, h, hm]; exact List.mem_cons_self y ys)
    · exact Or.inr (List.mem_cons_of_mem y h)

theorem le_foldl_max (xs : List ℚ) (init : ℚ) :
    init ≤ xs.foldl max init ∧ ∀ x ∈ xs, x ≤ xs.foldl max init := by
  induction xs generalizing init with
  | nil => exact ⟨le_refl _, by intro x hx; simp at hx⟩
  | cons y ys ih =>
    obtain ⟨h1, h2⟩ := ih (max init y)
    refine ⟨le_trans (le_max_left _ _) h1, ?_⟩
    intro x hx
    rcases List.mem_cons.mp hx with rfl | hx2
    · exact le_trans (le_max_right _ _) h1
    · exact h2 x hx2

theorem listMax_mem (l : List ℚ) (h : l ≠ []) : listMax l ∈ l := by
  cases l with
  | nil => exact absurd rfl h
  | cons x xs =>
    rcases foldl_max_mem xs x with h2 | h2
    · rw [listMax, h2]; exact List.mem_cons_self x xs
    · rw [listMax]; exact List.mem_cons_of_mem x h2

theorem le_listMax (l : List ℚ) (x : ℚ) (hx : x ∈ l) : x ≤ listMax l := by
  cases l with
  | nil => simp at hx
  | cons y ys =>
    obtain ⟨h1, h2⟩ := le_foldl_max ys y
    rcases List.mem_cons.mp hx with rfl | hx2
    · exact h1
    · exact h2 x hx2

theorem getLastD_mem {α : Type} (l : List α) (d : α) (h : l ≠ []) :
    l.getLastD d ∈ l := by
  induction l generalizing d with
  | nil => exact absurd rfl h
  | cons x xs ih =>
    rw [List.getLastD_cons]
    cases xs with
    | nil => simp
    | cons y ys => exact List.mem_cons_of_mem x (ih x (by simp))

theorem climbRound_eq_nil (eu : List TimeAllocation → ℚ) (decay : ℚ)
    (a : List TimeAllocation) (s : ℚ) (h : roundCandidates eu a s = []) :
    climbRound eu decay (a, s) = (a, s / decay) := by
  simp [climbRound, h]

theorem climbRound_eq_sel (eu : List TimeAllocation → ℚ) (decay : ℚ)
    (a : List TimeAllocation) (s : ℚ) (h : roundCandidates eu a s ≠ []) :
    climbRound eu decay (a, s) =
      (selectLoop eu (listMax ((roundCandidates eu a s).map eu)) a
        (roundCandidates eu a s), s) := by
  cases hc : roundCandidates eu a s with
  | nil => exact absurd hc h
  | cons c cs => simp [climbRound, hc]

theorem climbRound_sel_spec (eu : List TimeAllocation → ℚ) (decay : ℚ)
    (a : List TimeAllocation) (s : ℚ) (h : roundCandidates eu a s ≠ []) :
    (climbRound eu decay (a, s)).1 ∈ roundCandidates eu a s ∧
      eu (climbRound eu decay (a, s)).1 = listMax ((roundCandidates eu a s).map eu) := by
  have hsel := climbRound_eq_sel eu decay a s h
  set cands := roundCandidates eu a s with hcands
  set b := listMax (cands.map eu) with hb
  have hbmem : b ∈ cands.map eu := by
    refine listMax_mem (cands.map eu) ?_
    intro hmap
    exact h (List.map_eq_nil_iff.mp hmap)
  rcases List.mem_map.mp hbmem with ⟨c, hcmem, hcb⟩
  have hfil : c ∈ cands.filter (fun x => decide (eu x = b)) :=
    List.mem_filter.mpr ⟨hcmem, decide_eq_true hcb⟩
  have hfilne : cands.filter (fun x => decide (eu x = b)) ≠ [] := by
    intro hnil
    rw [hnil] at hfil
    simp at hfil
  have hlast := getLastD_mem (cands.filter (fun x => decide (eu x = b))) a hfilne
  have hres : (climbRound eu decay (a, s)).1 =
      (cands.filter (fun x => decide (eu x = b))).getLastD a := by
    rw [hsel]
    exact selectLoop_eq_getLastD eu b a cands
  constructor
  · rw [hres]
    exact (List.mem_filter.mp hlast).1
  · rw [hres]
    exact of_decide_eq_true (List.mem_filter.mp hlast).2

theorem eu_le_climbRound (eu : List TimeAllocation → ℚ) (decay : ℚ)
    (a : List TimeAllocation) (s : ℚ) :
    eu a ≤ eu (climbRound eu decay (a, s)).1 := by
  by_cases h : roundCandidates eu a s = []
  · rw [climbRound_eq_nil eu decay a s h]
  · obtain ⟨hmem, _⟩ := climbRound_sel_spec eu decay a s h
    exact le_of_lt (mem_roundCandidates_improving eu a _ s hmem)

theorem climbLoop_succ_le (eu : List TimeAllocation → ℚ) (decay threshold : ℚ)
    (fuel : ℕ) (a : List TimeAllocation) (s : ℚ) (h : ¬threshold < s) :
    climbLoop eu decay threshold (fuel + 1) a s = some a := by
  simp [climbLoop, h]

theorem climbLoop_succ_gt (eu : List TimeAllocation → ℚ) (decay threshold : ℚ)
    (fuel : ℕ) (a : List TimeAllocation) (s : ℚ) (h : threshold < s) :
    climbLoop eu decay threshold (fuel + 1) a s =
      climbLoop eu decay threshold fuel (climbRound eu decay (a, s)).1
        (climbRound eu decay (a, s)).2 := by
  simp [climbLoop, h]

theorem eu_le_climbLoop (eu : List TimeAllocation → ℚ) (decay threshold : ℚ) :
    ∀ (fuel : ℕ) (a : List TimeAllocation) (s : ℚ) (r : List TimeAllocation),
      climbLoop eu decay threshold fuel a s = some r → eu a ≤ eu r := by
  intro fuel
  induction fuel with
  | zero => intro a s r h; simp [climbLoop] at h
  | succ f ih =>
    intro a s r h
    by_cases hc : threshold < s
    · rw [climbLoop_succ_gt eu decay threshold f a s hc] at h
      exact le_trans (eu_le_climbRound eu decay a s) (ih _ _ _ h)
    · rw [climbLoop_succ_le eu decay threshold f a s hc] at h
      obtain rfl : a = r := by simpa using h
      exact le_refl _

theorem timeAllocation_ext (u v : TimeAllocation) (h1 : u.time = v.time)
    (h2 : u.node_id = v.node_id) : u = v := by
  cases u
  cases v
  simp_all

theorem latticeSet_finite (n : ℕ) (T s : ℚ) (hs : 0 < s)
    (a0 : List TimeAllocation) (h0 : GoodAlloc n T a0) :
    (LatticeSet n T s a0).Finite := by
  classical
  obtain ⟨h0len, h0ids, h0nn, h0tot⟩ := h0
  set V : Fin n → Set ℚ :=
    fun i => {t : ℚ | 0 ≤ t ∧ t ≤ T ∧ ∃ k : ℤ, t = (nth a0 i.val).time + (k : ℚ) * s}
    with hV
  have hVfin : ∀ i, (V i).Finite := by
    intro i
    have hsub : V i ⊆
        (fun k : ℤ => (nth a0 i.val).time + (k : ℚ) * s) ''
          (Set.Icc (-⌈T / s⌉) ⌈T / s⌉) := by
      rintro t ⟨ht0, htT, k, hk⟩
      have ht0i : 0 ≤ (nth a0 i.val).time := h0nn i.val i.isLt
      have htTi : (nth a0 i.val).time ≤ T := by
        have hle := nth_le_sumTimes a0 i.val
          (fun j hj => h0nn j (by rwa [h0len] at hj)) (by rw [h0len]; exact i.isLt)
        rwa [h0tot] at hle
      have hub : (k : ℚ) * s ≤ T := by linarith
      have hlb : -T ≤ (k : ℚ) * s := by linarith
      have hk1 : (k : ℚ) ≤ T / s := (le_div_iff₀ hs).mpr hub
      have hk2 : -(T / s) ≤ (k : ℚ) := by
        rw [neg_le]
        have : -(k : ℚ) * s ≤ T := by linarith
        exact (le_div_iff₀ hs).mpr this
      have hkc1 : k ≤ ⌈T / s⌉ := by
        have := le_trans hk1 (Int.le_ceil (T / s))
        exact_mod_cast this
      have hkc2 : -⌈T / s⌉ ≤ k := by
        have hceil : -(⌈T / s⌉ : ℚ) ≤ -(T / s) := neg_le_neg (Int.le_ceil (T / s))
        have : -(⌈T / s⌉ : ℚ) ≤ (k : ℚ) := le_trans hceil hk2
        exact_mod_cast this
      exact ⟨k, Set.mem_Icc.mpr ⟨hkc2, hkc1⟩, hk.symm⟩
    exact ((Set.finite_Icc _ _).image _).subset hsub
  have hpis : (Set.pi Set.univ V).Finite := Set.Finite.pi hVfin
  have himg : (fun (x : List TimeAllocation) (i : Fin n) => (nth x i.val).time) ''
      (LatticeSet n T s a0) ⊆ Set.pi Set.univ V := by
    rintro _ ⟨x, hx, rfl⟩
    intro i _
    obtain ⟨⟨hxlen, hxids, hxnn, hxtot⟩, hxlat⟩ := hx
    refine ⟨hxnn i.val i.isLt, ?_, hxlat i.val i.isLt⟩
    have hle := nth_le_sumTimes x i.val
      (fun j hj => hxnn j (by rwa [hxlen] at hj)) (by rw [hxlen]; exact i.isLt)
    rwa [hxtot] at hle
  have hinj : Set.InjOn (fun (x : List TimeAllocation) (i : Fin n) => (nth x i.val).time)
      (LatticeSet n T s a0) := by
    rintro x hx y hy hxy
    obtain ⟨⟨hxlen, hxids, hxnn, hxtot⟩, _⟩ := hx
    obtain ⟨⟨hylen, hyids, hynn, hytot⟩, _⟩ := hy
    refine nth_ext x y (by rw [hxlen, hylen]) ?_
    intro i hi
    have hin : i < n := by rwa [hxlen] at hi
    have htime : (nth x i).time = (nth y i).time := by
      have := congrFun hxy ⟨i, hin⟩
      simpa using this
    have hid : (nth x i).node_id = (nth y i).node_id := by
      rw [hxids i hin, hyids i hin]
    exact timeAllocation_ext _ _ htime hid
  exact Set.Finite.of_finite_image (hpis.subset himg) hinj

theorem latticeSet_trans (n : ℕ) (T s : ℚ) (a b : List TimeAllocation)
    (hb : b ∈ LatticeSet n T s a) : LatticeSet n T s b ⊆ LatticeSet n T s a := by
  obtain ⟨_, hblat⟩ := hb
  rintro x ⟨hxgood, hxlat⟩
  refine ⟨hxgood, ?_⟩
  intro i hi
  obtain ⟨k1, hk1⟩ := hxlat i hi
  obtain ⟨k2, hk2⟩ := hblat i hi
  refine ⟨k1 + k2, ?_⟩
  rw [hk1, hk2]
  push_cast
  ring

theorem above_ssubset (n : ℕ) (T s : ℚ) (eu : List TimeAllocation → ℚ)
    (a b : List TimeAllocation) (hb_latt : b ∈ LatticeSet n T s a)
    (hb_eu : eu a < eu b) :
    {x | x ∈ LatticeSet n T s b ∧ eu b < eu x} ⊂
      {x | x ∈ LatticeSet n T s a ∧ eu a < eu x} := by
  have hsub : {x | x ∈ LatticeSet n T s b ∧ eu b < eu x} ⊆
      {x | x ∈ LatticeSet n T s a ∧ eu a < eu x} := by
    rintro x ⟨hxl, hxe⟩
    exact ⟨latticeSet_trans n T s a b hb_latt hxl, lt_trans hb_eu hxe⟩
  rw [Set.ssubset_iff_of_subset hsub]
  exact ⟨b, ⟨hb_latt, hb_eu⟩, fun hbb => lt_irrefl (eu b) hbb.2⟩

theorem climbRound_improving_spec (n : ℕ) (T : ℚ) (eu : List TimeAllocation → ℚ)
    (decay : ℚ) (a : List TimeAllocation) (s : ℚ) (hg : GoodAlloc n T a)
    (hs : 0 < s) (hne : roundCandidates eu a s ≠ []) :
    GoodAlloc n T (climbRound eu decay (a, s)).1 ∧
      (climbRound eu decay (a, s)).1 ∈ LatticeSet n T s a ∧
      eu a < eu (climbRound eu decay (a, s)).1 ∧
      (climbRound eu decay (a, s)).2 = s := by
  obtain ⟨hmem, _⟩ := climbRound_sel_spec eu decay a s hne
  have hids : ∀ i < a.length, (nth a i).node_id = i := by
    intro i hi
    exact hg.2.1 i (by rwa [hg.1] at hi)
  obtain ⟨i, j, hi, hj, hij, hnneg, hcand⟩ :=
    mem_roundCandidates_struct eu a _ s hids hmem
  have hin : i < n := by rwa [hg.1] at hi
  have hjn : j < n := by rwa [hg.1] at hj
  have hgood2 : GoodAlloc n T (climbRound eu decay (a, s)).1 := by
    rw [hcand]
    exact goodAlloc_makeCandidate n T a i j s hg hin hjn hij hs hnneg
  refine ⟨hgood2, ⟨hgood2, ?_⟩, mem_roundCandidates_improving eu a _ s hmem, ?_⟩
  · intro k hk
    rw [hcand]
    exact lattice_makeCandidate a i j s hi hj hij k (by rwa [hg.1])
  · rw [climbRound_eq_sel eu decay a s hne]

theorem climb_terminates (eu : List TimeAllocation → ℚ) (decay threshold : ℚ)
    (hdecay : 1 < decay) (hthr : 0 < threshold) (n : ℕ) (T : ℚ) :
    ∀ (m : ℕ) (s : ℚ), s / decay ^ m ≤ threshold →
      ∀ a, GoodAlloc n T a →
        ∃ fuel r, climbLoop eu decay threshold fuel a s = some r := by
  intro m
  induction m with
  | zero =>
    intro s hs a _
    have hsle : s ≤ threshold := by simpa using hs
    exact ⟨1, a, climbLoop_succ_le eu decay threshold 0 a s (not_lt.mpr hsle)⟩
  | succ m ih =>
    intro s hs a hgood
    by_cases hcond : threshold < s
    · have hspos : 0 < s := lt_trans hthr hcond
      have hnext : (s / decay) / decay ^ m ≤ threshold := by
        rw [div_div, ← pow_succ']
        exact hs
      have inner : ∀ (μb : ℕ) (a2 : List TimeAllocation), GoodAlloc n T a2 →
          Set.ncard {x | x ∈ LatticeSet n T s a2 ∧ eu a2 < eu x} = μb →
          ∃ fuel r, climbLoop eu decay threshold fuel a2 s = some r := by
        intro μb
        induction μb using Nat.strong_induction_on with
        | _ μb ihμ =>
          intro a2 hg2 hμ
          by_cases hc : roundCandidates eu a2 s = []
          · obtain ⟨fuel, r, hrun⟩ := ih (s / decay) hnext a2 hg2
            refine ⟨fuel + 1, r, ?_⟩
            rw [climbLoop_succ_gt eu decay threshold fuel a2 s hcond,
              climbRound_eq_nil eu decay a2 s hc]
            exact hrun
          · obtain ⟨hgood2, hlatt2, himp2, hstep2⟩ :=
              climbRound_improving_spec n T eu decay a2 s hg2 hspos hc
            have hss := above_ssubset n T s eu a2 (climbRound eu decay (a2, s)).1
              hlatt2 himp2
            have hfinA : {x | x ∈ LatticeSet n T s a2 ∧ eu a2 < eu x}.Finite :=
              (latticeSet_finite n T s hspos a2 hg2).subset (fun x hx => hx.1)
            have hlt : Set.ncard {x | x ∈ LatticeSet n T s (climbRound eu decay (a2, s)).1 ∧
                eu (climbRound eu decay (a2, s)).1 < eu x} < μb := by
              rw [← hμ]
              exact Set.ncard_lt_ncard hss hfinA
            obtain ⟨fuel, r, hrun⟩ := ihμ _ hlt (climbRound eu decay (a2, s)).1 hgood2 rfl
            refine ⟨fuel + 1, r, ?_⟩
            rw [climbLoop_succ_gt eu decay threshold fuel a2 s hcond, hstep2]
            exact hrun
      exact inner _ a hgood rfl
    · exact ⟨1, a, climbLoop_succ_le eu decay threshold 0 a s hcond⟩

/-- Claim C2: in every run of `naive_hill_climbing` the expected utility of
the current-best allocation is monotonically non-decreasing across rounds:
each round's result scores at least the round's input (candidates are
collected only when strictly improving), and any completed run returns an
allocation scoring at least the initial one. -/
theorem claim_C2 :
    (∀ (eu : List TimeAllocation → ℚ) (decay : ℚ) (a : List TimeAllocation) (s : ℚ),
      eu a ≤ eu (climbRound eu decay (a, s)).1) ∧
    (∀ (eu : List TimeAllocation → ℚ) (budget : ℚ) (order : ℕ)
      (a r : List TimeAllocation) (decay threshold : ℚ) (fuel : ℕ),
      ContractProgram.naive_hill_climbing eu budget order a decay threshold fuel = some r →
      eu a ≤ eu r) := by
  refine ⟨eu_le_climbRound, ?_⟩
  intro eu budget order a r decay threshold fuel h
  exact eu_le_climbLoop eu decay threshold fuel a (budget / (order : ℚ)) r h

/-- Witness for C2 at a concrete run: budget 10 over 2 nodes with threshold
20 exits at once and returns the start allocation unchanged. -/
theorem claim_C2_witness :
    ContractProgram.naive_hill_climbing euZero 10 2 allocStart (6 / 5) 20 1 =
      some allocStart ∧ euZero allocStart ≤ euZero allocStart :=
  ⟨by decide, claim_C2.2 euZero 10 2 allocStart allocStart (6 / 5) 20 1 (by decide)⟩

/-- Claim C3: for every decay factor greater than 1 and positive threshold,
`naive_hill_climbing` started on a well-formed allocation list terminates
after finitely many rounds (some finite fuel completes the embedded while
loop) returning the current best allocation, and the loop exits exactly when
the step size falls at or below the threshold: at or below it the loop
returns immediately, above it the loop performs exactly one more round. -/
theorem claim_C3 (eu : List TimeAllocation → ℚ) (budget : ℚ) (order : ℕ)
    (a0 : List TimeAllocation) (decay threshold : ℚ)
    (hdecay : 1 < decay) (hthr : 0 < threshold)
    (hids : ∀ i < a0.length, (nth a0 i).node_id = i)
    (hnn : ∀ i < a0.length, 0 ≤ (nth a0 i).time) :
    (∃ fuel r,
      ContractProgram.naive_hill_climbing eu budget order a0 decay threshold fuel = some r) ∧
    (∀ (a : List TimeAllocation) (s : ℚ) (fuel : ℕ), s ≤ threshold →
      climbLoop eu decay threshold (fuel + 1) a s = some a) ∧
    (∀ (a : List TimeAllocation) (s : ℚ) (fuel : ℕ), threshold < s →
      climbLoop eu decay threshold (fuel + 1) a s =
        climbLoop eu decay threshold fuel (climbRound eu decay (a, s)).1
          (climbRound eu decay (a, s)).2) := by
  refine ⟨?_, ?_, ?_⟩
  · have hgood : GoodAlloc a0.length (sumTimes a0) a0 := ⟨rfl, hids, hnn, rfl⟩
    obtain ⟨m, hm⟩ := pow_unbounded_of_one_lt (budget / (order : ℚ) / threshold) hdecay
    have hdpos : (0 : ℚ) < decay := lt_trans zero_lt_one hdecay
    have hpow : (0 : ℚ) < decay ^ m := pow_pos hdpos m
    have h1 : budget / (order : ℚ) < decay ^ m * threshold := (div_lt_iff₀ hthr).mp hm
    have hsm : budget / (order : ℚ) / decay ^ m ≤ threshold :=
      le_of_lt ((div_lt_iff₀ hpow).mpr (by linarith))
    exact climb_terminates eu decay threshold hdecay hthr a0.length (sumTimes a0) m
      (budget / (order : ℚ)) hsm a0 hgood
  · intro a s fuel hle
    exact climbLoop_succ_le eu decay threshold fuel a s (not_lt.mpr hle)
  · intro a s fuel hgt
    exact climbLoop_succ_gt eu decay threshold fuel a s hgt

/-- Witness for C3 at a concrete instance: the default parameters
`decay = 1.2`, `threshold = 0.001` on the uniform two-node start. -/
theorem claim_C3_witness :
    ∃ fuel r, ContractProgram.naive_hill_climbing euZero 10 2 allocStart (6 / 5)
      (1 / 1000) fuel = some r :=
  (claim_C3 euZero 10 2 allocStart (6 / 5) (1 / 1000) (by norm_num) (by norm_num)
    (by decide) (by decide)).1

/-- Claim C4 (amended): in every round whose improving-candidates list is
non-empty, the new current best is a candidate achieving the maximum
expected utility among the improving candidates and the step size is kept —
but ties are broken by the LAST candidate encountered in enumeration order
(the selection loop overwrites the best on every tying candidate), not the
first. -/
theorem claim_C4_amended (eu : List TimeAllocation → ℚ) (decay : ℚ)
    (a : List TimeAllocation) (s : ℚ) (h : roundCandidates eu a s ≠ []) :
    (climbRound eu decay (a, s)).1 ∈ roundCandidates eu a s ∧
    eu (climbRound eu decay (a, s)).1 = listMax ((roundCandidates eu a s).map eu) ∧
    (∀ c ∈ roundCandidates eu a s, eu c ≤ eu (climbRound eu decay (a, s)).1) ∧
    (climbRound eu decay (a, s)).1 =
      ((roundCandidates eu a s).filter
        (fun c => decide (eu c = listMax ((roundCandidates eu a s).map eu)))).getLastD a ∧
    (climbRound eu decay (a, s)).2 = s := by
  obtain ⟨h1, h2⟩ := climbRound_sel_spec eu decay a s h
  refine ⟨h1, h2, ?_, ?_, ?_⟩
  · intro c hc
    rw [h2]
    exact le_listMax _ _ (List.mem_map.mpr ⟨c, hc, rfl⟩)
  · rw [climbRound_eq_sel eu decay a s h]
    exact selectLoop_eq_getLastD eu _ a _
  · rw [climbRound_eq_sel eu decay a s h]

/-- Counterexample to C4 as stated: with two tied improving candidates the
round commits the LAST tied candidate (`allocB`, from the pair `(1, 0)`),
not the first-encountered one (`allocA`, from the pair `(0, 1)`). -/
theorem claim_C4_counterexample :
    roundCandidates euTie allocStart 5 = [allocA, allocB] ∧
    euTie allocA = euTie allocB ∧
    climbRound euTie (6 / 5) (allocStart, 5) = (allocB, 5) ∧
    allocB ≠ allocA := by decide

/-- Witness for the amended C4 at the concrete tie scenario. -/
theorem claim_C4_witness :
    (climbRound euTie (6 / 5) (allocStart, 5)).1 ∈ roundCandidates euTie allocStart 5 :=
  (claim_C4_amended euTie (6 / 5) allocStart 5 (by decide)).1

/-- Claim C10: the candidate built for an ordered pair `(i, j)` of distinct
node ids (on a deep copy, modelled by the purely functional construction)
differs from the current best in exactly the two entries `i` and `j`:
entry `i`'s time decreases by the step, entry `j`'s time increases by the
step, every other entry and every node id is unchanged. -/
theorem claim_C10 (a : List TimeAllocation) (i j : ℕ) (s : ℚ)
    (hi : i < a.length) (hj : j < a.length) (hij : i ≠ j) (hs : 0 < s)
    (hskip : ¬((nth a i).time - s < 0)) :
    (makeCandidate a i j s).length = a.length ∧
    (nth (makeCandidate a i j s) i).time = (nth a i).time - s ∧
    (nth (makeCandidate a i j s) j).time = (nth a j).time + s ∧
    (∀ k, k ≠ i → k ≠ j → nth (makeCandidate a i j s) k = nth a k) ∧
    (∀ k, (nth (makeCandidate a i j s) k).node_id = (nth a k).node_id) ∧
    (nth (makeCandidate a i j s) i).time ≠ (nth a i).time ∧
    (nth (makeCandidate a i j s) j).time ≠ (nth a j).time := by
  refine ⟨length_makeCandidate a i j s, ?_, ?_, ?_, ?_, ?_, ?_⟩
  · rw [nth_makeCandidate_fst a i j s hi hij]
  · rw [nth_makeCandidate_snd a i j s hj hij]
  · intro k hki hkj
    exact nth_makeCandidate_other a i j k s hki hkj
  · intro k
    by_cases hki : k = i
    · subst hki
      rw [nth_makeCandidate_fst a k j s hi hij]
    · by_cases hkj : k = j
      · subst hkj
        rw [nth_makeCandidate_snd a i k s hj hij]
      · rw [nth_makeCandidate_other a i j k s hki hkj]
  · rw [nth_makeCandidate_fst a i j s hi hij]
    intro hcon
    simp only at hcon
    linarith
  · rw [nth_makeCandidate_snd a i j s hj hij]
    intro hcon
    simp only at hcon
    linarith

/-- Witness for C10 at a concrete pair: moving 2 seconds from node 0 to
node 1 of the uniform start. -/
theorem claim_C10_witness :
    (nth (makeCandidate allocStart 0 1 2) 0).time = (nth allocStart 0).time - 2 :=
  (claim_C10 allocStart 0 1 2 (by decide) (by decide) (by decide) (by norm_num)
    (by decide)).2.1

/-- Claim C6: calling `query_probability_contract_expression` with an empty
sample sequence fails with a hard `ZeroDivisionError` (it does not return 0),
and that error is a different exception class from the `KeyError` produced
by a missing profile key lookup. -/
theorem claim_C6 :
    (∀ (pp : PerformanceProfile) (q : ℚ),
      PerformanceProfile.query_probability_contract_expression pp q [] =
        .error .zeroDivisionError) ∧
    (∀ (entries : List (ℚ × QDict)) (k : ℚ), assocQ entries k = none →
      lookupQ (.dict entries) k = .error .keyError) ∧
    PyErr.zeroDivisionError ≠ PyErr.keyError := by
  refine ⟨fun pp q => rfl, ?_, by decide⟩
  intro entries k h
  simp [lookupQ, h]

/-- Witness for C6: the empty query on the concrete profile `ppC1` and the
missing key 2 in the (empty) dictionary level. -/
theorem claim_C6_witness :
    PerformanceProfile.query_probability_contract_expression ppC1 (1 / 2) [] =
      .error .zeroDivisionError :=
  claim_C6.1 ppC1 (1 / 2)

/-- Claim C9: `round_nearest` computes `round(number / step) * step` under
the host language's (half-to-even) rounding of the quotient, and on the
concrete inputs it returns `round_nearest(0.07, 0.05) = 0.05` and
`round_nearest(0.08, 0.05) = 0.1` (floats are modelled as exact rationals;
the IEEE double computation rounds to the same values on these inputs). -/
theorem claim_C9 :
    (∀ number step : ℚ, PerformanceProfile.round_nearest number step =
      (pyRound (number / step) : ℚ) * step) ∧
    PerformanceProfile.round_nearest (7 / 100) (5 / 100) = 5 / 100 ∧
    PerformanceProfile.round_nearest (8 / 100) (5 / 100) = 1 / 10 :=
  ⟨fun _ _ => rfl, by decide, by decide⟩

theorem qpce_eq (pp : PerformanceProfile) (q : ℚ) (l : List ℚ) (y : ℚ) (ys : List ℚ)
    (hs : l.insertionSort (· ≤ ·) = y :: ys) :
    PerformanceProfile.query_probability_contract_expression pp q l =
      .ok ((((y :: ys).countP (fun x =>
        decide ((⌊q / pp.quality_interval⌋ : ℚ) * pp.quality_interval ≤ x ∧
          x < (⌊q / pp.quality_interval⌋ : ℚ) * pp.quality_interval +
            pp.quality_interval)) : ℕ) : ℚ) / (((y :: ys).length : ℕ) : ℚ)) := by
  simp [PerformanceProfile.query_probability_contract_expression, hs]

theorem insertionSort_ne_nil (l : List ℚ) (h : l ≠ []) :
    l.insertionSort (· ≤ ·) ≠ [] := by
  intro hnil
  have hlen := (List.perm_insertionSort (· ≤ ·) l).length_eq
  rw [hnil] at hlen
  exact h (List.length_eq_zero.mp hlen.symm)

/-- Claim C5 (amended): on every non-empty sample sequence the returned
probability lies in [0,1] (stated for positive `quality_interval`, the
configuration invariant of spec §6); and for `quality_interval ≥ 1.0`, a
queried quality inside the band `[0, quality_interval)` and a non-empty
sample sequence of qualities in [0,1] that are each STRICTLY below
`quality_interval`, the probability is exactly 1.0.  (The strictness is
forced by the half-open band: at `quality_interval = 1.0` a sample exactly
equal to 1.0 falls outside `[0, 1)` and the probability drops below 1.) -/
theorem claim_C5_amended :
    (∀ (pp : PerformanceProfile) (q : ℚ) (l : List ℚ),
      0 < pp.quality_interval → l ≠ [] →
      ∃ p, PerformanceProfile.query_probability_contract_expression pp q l = .ok p ∧
        0 ≤ p ∧ p ≤ 1) ∧
    (∀ (pp : PerformanceProfile) (q : ℚ) (l : List ℚ),
      1 ≤ pp.quality_interval → 0 ≤ q → q < pp.quality_interval → l ≠ [] →
      (∀ x ∈ l, 0 ≤ x ∧ x ≤ 1 ∧ x < pp.quality_interval) →
      PerformanceProfile.query_probability_contract_expression pp q l = .ok 1) := by
  constructor
  · intro pp q l hqi hl
    cases hs : l.insertionSort (· ≤ ·) with
    | nil => exact absurd hs (insertionSort_ne_nil l hl)
    | cons y ys =>
      rw [qpce_eq pp q l y ys hs]
      have hlenpos : (0 : ℚ) < (((y :: ys).length : ℕ) : ℚ) := by
        exact_mod_cast Nat.succ_pos ys.length
      refine ⟨_, rfl, ?_, ?_⟩
      · exact div_nonneg (Nat.cast_nonneg _) (Nat.cast_nonneg _)
      · rw [div_le_one hlenpos]
        exact_mod_cast List.countP_le_length _
  · intro pp q l hqi hq0 hqlt hl hall
    have hqipos : (0 : ℚ) < pp.quality_interval := lt_of_lt_of_le zero_lt_one hqi
    have hfloor : ⌊q / pp.quality_interval⌋ = 0 := by
      rw [Int.floor_eq_zero_iff]
      constructor
      · exact div_nonneg hq0 (le_of_lt hqipos)
      · exact (div_lt_one hqipos).mpr hqlt
    cases hs : l.insertionSort (· ≤ ·) with
    | nil => exact absurd hs (insertionSort_ne_nil l hl)
    | cons y ys =>
      rw [qpce_eq pp q l y ys hs]
      have hallsorted : ∀ x ∈ y :: ys, (fun x =>
          decide ((⌊q / pp.quality_interval⌋ : ℚ) * pp.quality_interval ≤ x ∧
            x < (⌊q / pp.quality_interval⌋ : ℚ) * pp.quality_interval +
              pp.quality_interval)) x = true := by
        intro x hx
        have hxl : x ∈ l := by
          have := (List.perm_insertionSort (· ≤ ·) l).mem_iff (a := x)
          rw [hs] at this
          exact this.mp hx
        obtain ⟨hx0, _, hxlt⟩ := hall x hxl
        refine decide_eq_true ?_
        rw [hfloor]
        push_cast
        constructor
        · simpa using hx0
        · simpa using hxlt
      have hcount : (y :: ys).countP (fun x =>
          decide ((⌊q / pp.quality_interval⌋ : ℚ) * pp.quality_interval ≤ x ∧
            x < (⌊q / pp.quality_interval⌋ : ℚ) * pp.quality_interval +
              pp.quality_interval)) = (y :: ys).length :=
        List.countP_eq_length.mpr hallsorted
      rw [hcount]
      have hlenne : (((y :: ys).length : ℕ) : ℚ) ≠ 0 :=
        Nat.cast_ne_zero.mpr (Nat.succ_ne_zero ys.length)
      rw [div_self hlenne]

/-- Counterexample to C5 as stated: with `quality_interval = 1.0` and the
single sample 1.0 (a quality in [0,1]), the full-range query at quality 0.5
returns probability 0, not 1: the half-open band `[0, 1)` excludes the
sample at exactly 1.0. -/
theorem claim_C5_counterexample :
    ppC5.quality_interval = 1 ∧
    PerformanceProfile.query_probability_contract_expression ppC5 (1 / 2) [1] = .ok 0 ∧
    (Except.ok (0 : ℚ) : Except PyErr ℚ) ≠ .ok 1 := by
  refine ⟨rfl, by decide, by decide⟩

/-- Witness for the amended C5: a concrete in-range query (samples
`[1/2, 3/4]`, quality interval 1) hits both conjuncts. -/
theorem claim_C5_witness :
    (∃ p, PerformanceProfile.query_probability_contract_expression ppC5 (1 / 2)
      [1, 1 / 2] = .ok p ∧ 0 ≤ p ∧ p ≤ 1) ∧
    PerformanceProfile.query_probability_contract_expression ppC5 (1 / 2)
      [1 / 2, 3 / 4] = .ok 1 :=
  ⟨claim_C5_amended.1 ppC5 (1 / 2) [1, 1 / 2] (by decide) (by decide),
   claim_C5_amended.2 ppC5 (1 / 2) [1 / 2, 3 / 4] (by decide) (by decide)
     (by decide) (by decide) (by decide)⟩

theorem except_bind_ok {ε α β : Type} (a : α) (f : α → Except ε β) :
    (Except.ok a : Except ε α) >>= f = f a := rfl

theorem except_bind_error {ε α β : Type} (e : ε) (f : α → Except ε β) :
    (Except.error e : Except ε α) >>= f = Except.error e := rfl

theorem pyRound_intCast (z : ℤ) : pyRound ((z : ℤ) : ℚ) = z := by
  unfold pyRound
  simp only [Int.floor_intCast, sub_self]
  norm_num

/-- Claim C8: for a leaf node (empty parent-quality list) whose rounded time
formats to a recorded key holding a non-empty sample list, the average
quality is exactly the arithmetic mean (sum divided by length) of the sample
list at that single key — no interval union and no further rounding. -/
theorem claim_C8 (pp : PerformanceProfile) (top : List (ℕ × QDict)) (d : QDict)
    (qs : List ℚ) (id : ℕ) (time : TimeAllocation)
    (hdict : pp.dictionary = some top)
    (hnode : topLookup top id = .ok d)
    (hkey : samplesAt d
      (fmt1 (PerformanceProfile.round_nearest time.time pp.time_interval)) = .ok qs)
    (hne : qs ≠ []) :
    PerformanceProfile.query_average_quality pp id time [] =
      .ok (qs.sum / (qs.length : ℚ)) := by
  cases qs with
  | nil => exact absurd rfl hne
  | cons a as =>
    simp [PerformanceProfile.query_average_quality, hdict, hnode, hkey,
      except_bind_ok, PerformanceProfile.average_quality]

/-- Witness for C8: the leaf profile `dictC8` queried at time 5.1 rounds to
the recorded key 5.0 and returns the mean (1/2 + 1) / 2 = 3/4. -/
theorem claim_C8_witness :
    PerformanceProfile.query_average_quality ppC8 0 ⟨51 / 10, 0⟩ [] = .ok (3 / 4) := by
  have h := claim_C8 ppC8 [(0, dictC8)] dictC8 [1 / 2, 1] 0 ⟨51 / 10, 0⟩ rfl rfl
    (by decide) (by decide)
  rw [h]
  norm_num [List.sum_cons]

/-- Counterexample to C1 as stated: querying `ppC1` at its time limit 10
returns only the samples at keys 9.0 through 9.9 — the half-open last
interval `[9, 10)` — and excludes the sample 100 recorded at the key equal
to the limit itself, even though that key is present in the profile. -/
theorem claim_C1_counterexample :
    PerformanceProfile.query_quality_list_on_interval ppC1 10 0 [] =
      .ok [90, 91, 92, 93, 94, 95, 96, 97, 98, 99] ∧
    samplesAt dictC1 10 = .ok [100] ∧
    (100 : ℚ) ∉ [(90 : ℚ), 91, 92, 93, 94, 95, 96, 97, 98, 99] := by
  refine ⟨by decide, by decide, by decide⟩

/-- Claim C1 (amended): at `time = time_limit` the queried discretization
interval is the last full interval shifted below the limit but remains
HALF-OPEN: with the repository configuration (`time_interval = 1`,
`time_step_size = 0.1`) the enumerated keys are
`floor(limit) - 1, floor(limit) - 0.9, ..., floor(limit) - 0.1`, each
strictly below the limit, so samples recorded at the time key equal to the
limit are never included. -/
theorem claim_C1_amended (pp : PerformanceProfile) (time : ℚ)
    (hti : pp.time_interval = 1) (hstep : pp.time_step_size = 1 / 10)
    (htime : time = pp.time_limit) :
    timeKeys pp time =
      (List.range 10).map (fun (k : ℕ) => ((⌊pp.time_limit⌋ : ℚ) - 1) + (k : ℚ) / 10) ∧
    ∀ t ∈ timeKeys pp time, t < pp.time_limit := by
  subst htime
  have hnd : PerformanceProfile.find_number_of_decimals ((1 : ℚ) / 10) = 1 := by decide
  have hstart : (⌊(pp.time_limit - pp.time_interval) / pp.time_interval⌋ : ℚ) *
      pp.time_interval = (⌊pp.time_limit⌋ : ℚ) - 1 := by
    rw [hti]
    rw [show pp.time_limit - 1 = pp.time_limit - ((1 : ℤ) : ℚ) by norm_num]
    rw [div_one, mul_one, Int.floor_sub_int]
    push_cast
    ring
  have hkeys : timeKeys pp pp.time_limit =
      (List.range 10).map (fun (k : ℕ) => ((⌊pp.time_limit⌋ : ℚ) - 1) + (k : ℚ) / 10) := by
    simp only [timeKeys, eq_self_iff_true, if_true]
    rw [hstart, hti, hstep, hnd]
    unfold arange
    rw [show (⌊pp.time_limit⌋ : ℚ) - 1 + 1 - ((⌊pp.time_limit⌋ : ℚ) - 1) = 1 by ring]
    rw [show ((1 : ℚ) / (1 / 10)) = ((10 : ℤ) : ℚ) by norm_num]
    rw [Int.ceil_intCast]
    rw [show ((10 : ℤ)).toNat = 10 from rfl]
    rw [List.map_map]
    refine List.map_congr_left ?_
    intro k hk
    simp only [Function.comp]
    unfold roundDec
    rw [show ((⌊pp.time_limit⌋ : ℚ) - 1 + (k : ℚ) * (1 / 10)) * 10 ^ 1 =
      ((10 * (⌊pp.time_limit⌋ - 1) + (k : ℤ) : ℤ) : ℚ) by push_cast; ring]
    rw [pyRound_intCast]
    push_cast
    ring
  refine ⟨hkeys, ?_⟩
  intro t ht
  rw [hkeys] at ht
  rcases List.mem_map.mp ht with ⟨k, hk, rfl⟩
  have hk9 : (k : ℚ) ≤ 9 := by
    have := List.mem_range.mp hk
    exact_mod_cast Nat.lt_succ_iff.mp this
  have hfl : (⌊pp.time_limit⌋ : ℚ) ≤ pp.time_limit := Int.floor_le _
  have hk10 : (k : ℚ) / 10 ≤ 9 / 10 := by linarith
  linarith

/-- Witness for the amended C1 at the concrete profile `ppC1`
(limit 10): the keys are 9.0 through 9.9, all below 10. -/
theorem claim_C1_witness :
    timeKeys ppC1 10 =
      (List.range 10).map (fun (k : ℕ) => ((⌊ppC1.time_limit⌋ : ℚ) - 1) + (k : ℚ) / 10) ∧
    ∀ t ∈ timeKeys ppC1 10, t < ppC1.time_limit :=
  claim_C1_amended ppC1 10 rfl rfl rfl

theorem fpq_leaf_eq (pp : PerformanceProfile) (tas : List TimeAllocation)
    (id : ℕ) (d : ℕ) (hne : ¬(d + 1 = 1)) :
    ContractProgram.find_parent_qualities pp tas (.mk id []) d =
      (match listGetE tas id with
       | .error e => .error e
       | .ok ta => (PerformanceProfile.query_average_quality pp id ta []).map FPQRes.flt) := by
  unfold ContractProgram.find_parent_qualities
  simp only [if_neg hne]

theorem fpq_zero_leaf (pp : PerformanceProfile) (tas : List TimeAllocation) (id : ℕ) :
    ContractProgram.find_parent_qualities pp tas (.mk id []) 0 = .ok (.lst []) := by
  unfold ContractProgram.find_parent_qualities
  simp

theorem fpq_cons_eq (pp : PerformanceProfile) (tas : List TimeAllocation)
    (id : ℕ) (p : Node) (ps : List Node) (d : ℕ) :
    ContractProgram.find_parent_qualities pp tas (.mk id (p :: ps)) d =
      (match fpqList pp tas (p :: ps) (d + 1) with
       | .error e => .error e
       | .ok parent_qualities =>
         if d + 1 = 1 then .ok (.lst parent_qualities)
         else
           match toFloats parent_qualities with
           | .error e => .error e
           | .ok fs =>
             match listGetE tas id with
             | .error e => .error e
             | .ok ta => (PerformanceProfile.query_average_quality pp id ta fs).map FPQRes.flt) := by
  unfold ContractProgram.find_parent_qualities
  rfl

theorem fpqList_nil (pp : PerformanceProfile) (tas : List TimeAllocation) (d : ℕ) :
    fpqList pp tas [] d = .ok [] := by
  unfold fpqList
  rfl

theorem fpqList_cons (pp : PerformanceProfile) (tas : List TimeAllocation)
    (p : Node) (ps : List Node) (d : ℕ) :
    fpqList pp tas (p :: ps) d =
      (match ContractProgram.find_parent_qualities pp tas p d with
       | .error e => .error e
       | .ok q =>
         match fpqList pp tas ps d with
         | .error e => .error e
         | .ok qs => .ok (q :: qs)) := by
  conv_lhs => unfold fpqList

theorem fpq_ge_one (pp : PerformanceProfile) (tas : List TimeAllocation)
    (node : Node) (d : ℕ) (hd : 1 ≤ d) :
    (∃ e, ContractProgram.find_parent_qualities pp tas node d = .error e) ∨
    (∃ q, ContractProgram.find_parent_qualities pp tas node d = .ok (.flt q)) := by
  have hne : ¬(d + 1 = 1) := by omega
  cases node with
  | mk id parents =>
    cases parents with
    | nil =>
      rw [fpq_leaf_eq pp tas id d hne]
      cases hget : listGetE tas id with
      | error e => exact Or.inl ⟨e, rfl⟩
      | ok ta =>
        change (∃ e, (PerformanceProfile.query_average_quality pp id ta []).map
            FPQRes.flt = .error e) ∨
          (∃ q, (PerformanceProfile.query_average_quality pp id ta []).map
            FPQRes.flt = .ok (.flt q))
        cases hq : PerformanceProfile.query_average_quality pp id ta [] with
        | error e => exact Or.inl ⟨e, rfl⟩
        | ok q => exact Or.inr ⟨q, rfl⟩
    | cons p ps =>
      rw [fpq_cons_eq pp tas id p ps d]
      cases hl : fpqList pp tas (p :: ps) (d + 1) with
      | error e =>
        simp only [hl]
        exact Or.inl ⟨e, rfl⟩
      | ok pqs =>
        simp only [hl, if_neg hne]
        cases htf : toFloats pqs with
        | error e =>
          simp only [htf]
          exact Or.inl ⟨e, rfl⟩
        | ok fs =>
          simp only [htf]
          cases hget : listGetE tas id with
          | error e => exact Or.inl ⟨e, rfl⟩
          | ok ta =>
            change (∃ e, (PerformanceProfile.query_average_quality pp id ta fs).map
                FPQRes.flt = .error e) ∨
              (∃ q, (PerformanceProfile.query_average_quality pp id ta fs).map
                FPQRes.flt = .ok (.flt q))
            cases hq : PerformanceProfile.query_average_quality pp id ta fs with
            | error e => exact Or.inl ⟨e, rfl⟩
            | ok q => exact Or.inr ⟨q, rfl⟩

theorem fpqList_ok (pp : PerformanceProfile) (tas : List TimeAllocation)
    (d : ℕ) (hd : 1 ≤ d) :
    ∀ (ps : List Node) (l : List FPQRes), fpqList pp tas ps d = .ok l →
      l.length = ps.length ∧ ∀ x ∈ l, ∃ q, x = .flt q := by
  intro ps
  induction ps with
  | nil =>
    intro l h
    rw [fpqList_nil] at h
    obtain rfl : ([] : List FPQRes) = l := Except.ok.inj h
    exact ⟨rfl, by simp⟩
  | cons p ps ih =>
    intro l h
    rw [fpqList_cons] at h
    cases hp : ContractProgram.find_parent_qualities pp tas p d with
    | error e =>
      simp only [hp] at h
      exact Except.noConfusion h
    | ok q =>
      simp only [hp] at h
      cases hrest : fpqList pp tas ps d with
      | error e =>
        simp only [hrest] at h
        exact Except.noConfusion h
      | ok qs =>
        simp only [hrest] at h
        obtain rfl : q :: qs = l := Except.ok.inj h
        obtain ⟨hlen, hall⟩ := ih qs hrest
        refine ⟨by simp [hlen], ?_⟩
        intro x hx
        rcases List.mem_cons.mp hx with rfl | hx2
        · rcases fpq_ge_one pp tas p d hd with ⟨e, he⟩ | ⟨q0, hq0⟩
          · rw [he] at hp
            exact Except.noConfusion hp
          · rw [hq0] at hp
            exact ⟨q0, (Except.ok.inj hp).symm⟩
        · exact hall x hx2

theorem fpq_zero (pp : PerformanceProfile) (tas : List TimeAllocation) (node : Node) :
    (∃ e, ContractProgram.find_parent_qualities pp tas node 0 = .error e) ∨
    (∃ l, ContractProgram.find_parent_qualities pp tas node 0 = .ok (.lst l) ∧
      l.length = node.parents.length ∧ ∀ x ∈ l, ∃ q, x = .flt q) := by
  cases node with
  | mk id parents =>
    cases parents with
    | nil =>
      exact Or.inr ⟨[], fpq_zero_leaf pp tas id, by simp [Node.parents], by simp⟩
    | cons p ps =>
      rw [fpq_cons_eq pp tas id p ps 0]
      cases hl : fpqList pp tas (p :: ps) (0 + 1) with
      | error e =>
        simp only [hl]
        exact Or.inl ⟨e, rfl⟩
      | ok pqs =>
        simp only [hl, if_pos rfl]
        obtain ⟨hlen, hall⟩ := fpqList_ok pp tas (0 + 1) (le_refl 1) (p :: ps) pqs hl
        exact Or.inr ⟨pqs, rfl, by simpa [Node.parents] using hlen, hall⟩

/-- Claim C7: the depth-0 call of `find_parent_qualities` returns (unless an
exception propagates) a LIST with exactly one float per direct parent of the
queried node — the empty list for a leaf — and never a bare float; every
recursive call at depth at least 1 returns (unless an exception propagates)
a single float, which for a leaf node is exactly the value of
`query_average_quality` at the node's allocation with the empty parent
list. -/
theorem claim_C7 :
    (∀ (pp : PerformanceProfile) (tas : List TimeAllocation) (node : Node),
      (∃ e, ContractProgram.find_parent_qualities pp tas node 0 = .error e) ∨
      (∃ l, ContractProgram.find_parent_qualities pp tas node 0 = .ok (.lst l) ∧
        l.length = node.parents.length ∧ ∀ x ∈ l, ∃ q, x = .flt q)) ∧
    (∀ (pp : PerformanceProfile) (tas : List TimeAllocation) (node : Node) (d : ℕ),
      1 ≤ d →
      (∃ e, ContractProgram.find_parent_qualities pp tas node d = .error e) ∨
      (∃ q, ContractProgram.find_parent_qualities pp tas node d = .ok (.flt q))) ∧
    (∀ (pp : PerformanceProfile) (tas : List TimeAllocation) (id : ℕ) (d : ℕ),
      1 ≤ d →
      ContractProgram.find_parent_qualities pp tas (.mk id []) d =
        (match listGetE tas id with
         | .error e => .error e
         | .ok ta => (PerformanceProfile.query_average_quality pp id ta []).map
             FPQRes.flt)) ∧
    (∀ (pp : PerformanceProfile) (tas : List TimeAllocation) (node : Node),
      node.parents = [] →
      ContractProgram.find_parent_qualities pp tas node 0 = .ok (.lst [])) := by
  refine ⟨fpq_zero, fpq_ge_one, ?_, ?_⟩
  · intro pp tas id d hd
    exact fpq_leaf_eq pp tas id d (by omega)
  · intro pp tas node h
    cases node with
    | mk id parents =>
      have : parents = [] := h
      subst this
      exact fpq_zero_leaf pp tas id

/-- Witness for C7 at a concrete leaf: node 0 with no parents at depth 1
equals the guarded `query_average_quality` call. -/
theorem claim_C7_witness :
    ContractProgram.find_parent_qualities ppC8 [⟨5, 0⟩] (.mk 0 []) 1 =
      (match listGetE [(⟨5, 0⟩ : TimeAllocation)] 0 with
       | .error e => .error e
       | .ok ta => (PerformanceProfile.query_average_quality ppC8 0 ta []).map
           FPQRes.flt) :=
  claim_C7.2.2.1 ppC8 [⟨5, 0⟩] 0 1 (le_refl 1)
